import Mathlib

/-!
Verification of the Audacity effect-processing engine (`src/effects/Effect.cpp`)
against its natural-language specification.

The development shallowly embeds the parts of `Effect.cpp` that the claims
are about:

* `computeBlock` — the per-iteration block-size computation of
  `Effect::ProcessTrack` (lines 1545-1598): `curBlockSize`, zero padding of
  the final partial input block, opportunistic folding of delay samples,
  and the drain phase that feeds zero blocks.
* `compensate` — the latency-compensation step performed after each
  `ProcessBlock` call (lines 1642-1671), applied only to processor-type
  effects.
* `dStep` / `dRun` — the whole block loop of `Effect::ProcessTrack`
  instantiated with a synthetic delay-line effect (for the latency
  alignment claim), driven by fuel since the C++ `while` loop's
  termination depends on the effect's latency reports.
* `oStep` / `oRun` — the same loop with an arbitrary effect oracle whose
  calls may also throw (for the error-handling claims).
* `replaceProcessedTracks` — the commit/rollback logic of
  `Effect::ReplaceProcessedTracks` (lines 2104-2188) over the
  position-aligned `mIMap`/`mOMap` arrays.
* `processPasses` — the two-pass driver of `Effect::Process`
  (lines 1251-1275).
* `groupBufferSetup` / `passAllocFlags` — the buffer sizing and
  conditional reallocation of `Effect::ProcessPass` (lines 1354-1398).
* `passVisits` — the leader/track iteration of `Effect::ProcessPass`
  (lines 1293-1349) deciding mono versus paired-stereo visits.

Samples are modelled as integers (the engine moves floats around without
arithmetic on them, so any sample type with decidable equality is
faithful); sample counts are `Nat` (the C++ values are non-negative
throughout the modelled code paths).
-/

namespace AudacityEffect

/-- The three effect types of `EffectType` used by the engine
(`EffectTypeGenerate`, `EffectTypeProcess`, `EffectTypeAnalyze`). -/
inductive EffectType where
  | generate
  | process
  | analyze
deriving DecidableEq, Repr

/-- Result of one block-size computation in the loop body of
`Effect::ProcessTrack`: the chosen `curBlockSize`, the window of the input
buffer handed to the effect (of length `mBlockSize`, zero padded past the
real input in the final partial block, all zeros in the drain phase), the
remaining input queue, and the updated `delayRemaining`. -/
structure BlockCalc where
  cbs : Nat
  buf : List Int
  inQ2 : List Int
  dR2 : Nat
deriving DecidableEq, Repr

/-- The samples the effect actually consumes from the buffer window: the
`ProcessBlock` call is made with length `cbs`. -/
def BlockCalc.fed (c : BlockCalc) : List Int :=
  c.buf.take c.cbs

/-- Block-size computation of `Effect::ProcessTrack` (Effect.cpp
lines 1545-1598).  With input remaining (`inQ` nonempty), `curBlockSize`
is `mBlockSize` capped at the input remaining; the final partial block is
zero padded up to `mBlockSize` and up to `mBlockSize - curBlockSize`
pending delay samples are folded into the same call.  With the input
exhausted, the drain phase processes `min mBlockSize delayRemaining`
zero samples. -/
def computeBlock (B : Nat) (inQ : List Int) (dR : Nat) : BlockCalc :=
  if inQ.length = 0 then
    let cbs := min B dR
    ⟨cbs, List.replicate B 0, [], dR - cbs⟩
  else if B ≤ inQ.length then
    ⟨B, inQ.take B, inQ.drop B, dR⟩
  else
    let r := inQ.length
    let fold := min (B - r) dR
    ⟨r + fold, inQ ++ List.replicate (B - r) 0, [], dR - fold⟩

/-- Result of the post-`ProcessBlock` latency-compensation step:
updated `curDelay`, updated `delayRemaining`, the surviving
`curBlockSize`, and the output samples actually emitted into the output
buffer for this call. -/
structure CompResult where
  curDelay : Nat
  delayRemaining : Nat
  curBlockSize : Nat
  emitted : List Int
deriving DecidableEq, Repr

/-- Latency compensation of `Effect::ProcessTrack` (Effect.cpp
lines 1642-1671).  Only processor-type effects (`isProcessor`) accumulate
the reported latency into `curDelay`/`delayRemaining` and then either
drop the whole block (when `curDelay >= curBlockSize`) or shift the
output left by `curDelay` samples (the `memmove`), shrinking
`curBlockSize`.  Generators and analyzers pass the produced block
through untouched. -/
def compensate (ty : EffectType) (lat cD dR cbs : Nat) (produced : List Int) :
    CompResult :=
  if ty = EffectType.process then
    let cD1 := cD + lat
    let dR1 := dR + lat
    if cbs ≤ cD1 then
      ⟨cD1 - cbs, dR1, 0, []⟩
    else
      ⟨0, dR1, cbs - cD1, produced.drop cD1⟩
  else
    ⟨cD, dR, cbs, produced⟩

/-- The case description of the compensation step as the specification
words it, used to compare against the code's `compensate`. -/
def compensateSpec (ty : EffectType) (lat cD dR cbs : Nat)
    (produced : List Int) : CompResult :=
  if ty = EffectType.process then
    if cD + lat ≥ cbs then
      ⟨(cD + lat) - cbs, dR + lat, 0, []⟩
    else
      ⟨0, dR + lat, cbs - (cD + lat), produced.drop (cD + lat)⟩
  else
    ⟨cD, dR, cbs, produced⟩

/-! ### The block loop of `Effect::ProcessTrack` with a delay-line effect

For the latency-alignment claim the effect unit is a synthetic delay
line with internal latency `L`: each `ProcessBlock` call appends the
input block to the delay queue and returns as many samples from its
front as the call consumed, so its output is the input stream delayed by
exactly `L` samples.  The loop state carries the engine-side quantities
of `Effect::ProcessTrack` (`inputRemaining` as the unread input queue,
`delayRemaining`, `curDelay`, the number of `ProcessBlock` calls made so
far — which is what a latency-report function is indexed by) together
with the effect's delay queue and the output committed so far.  Output
committed through `WaveTrack::Set` is modelled as an append-only list:
the engine writes contiguously (`outLeftPos` advances by exactly the
flushed count each flush), so the committed region's content is the
concatenation of all post-compensation blocks. -/

structure DState where
  inQ : List Int
  dR : Nat
  cD : Nat
  calls : Nat
  pend : List Int
  out : List Int
deriving DecidableEq, Repr

/-- One iteration of the `while (inputRemaining != 0 || delayRemaining != 0)`
loop of `Effect::ProcessTrack` (Effect.cpp lines 1519-1745) for a
single-channel processor-type effect whose `ProcessBlock` is the
delay line described above and whose `GetLatency()` returns
`lat s.calls` on the call. -/
def dStep (B : Nat) (lat : Nat → Nat) (s : DState) : DState :=
  let c := computeBlock B s.inQ s.dR
  let q := s.pend ++ c.fed
  let produced := q.take c.cbs
  let pend2 := q.drop c.cbs
  let r := compensate EffectType.process (lat s.calls) s.cD c.dR2 c.cbs produced
  ⟨c.inQ2, r.delayRemaining, r.curDelay, s.calls + 1, pend2,
    s.out ++ r.emitted⟩

/-- Fuel-indexed run of the loop: `none` when the fuel is exhausted
before the loop's condition `inputRemaining != 0 || delayRemaining != 0`
becomes false. -/
def dRun (B : Nat) (lat : Nat → Nat) : Nat → DState → Option DState
  | 0, s => if s.inQ = [] ∧ s.dR = 0 then some s else none
  | f + 1, s =>
    if s.inQ = [] ∧ s.dR = 0 then some s
    else dRun B lat f (dStep B lat s)

/-- Initial `ProcessTrack` state over input `input` for the delay-`L`
effect: `curDelay = delayRemaining = 0` (processor type), delay queue
holding `L` zeros. -/
def initD (L : Nat) (input : List Int) : DState :=
  ⟨input, 0, 0, 0, List.replicate L 0, []⟩

/-- A latency function that is literally constant: every `GetLatency()`
call reports `L`. -/
def constLat (L : Nat) : Nat → Nat :=
  fun _ => L

/-- The draining protocol for a fixed total latency `L`: `GetLatency()`
reports `L` on the first `ProcessBlock` call and `0` afterwards. -/
def oneShot (L : Nat) : Nat → Nat :=
  fun n => if n = 0 then L else 0

/-! ### Invariant for the delay-line run under the one-shot protocol

The invariant ties the state of the loop to the stream picture: the
samples fed to the effect so far are `input.take k` followed by the
zeros injected by folding/draining; of the effect's produced stream
(`L` zeros then the fed stream), the first `L - curDelay` samples have
been dropped by compensation and the rest is `out` followed by the
current delay-queue contents. -/

/-- The samples fed to the effect so far: a prefix of the input followed
by the zeros injected by the final-block fold and the drain phase. -/
def fedAllOf (L : Nat) (input : List Int) (k dR : Nat) : List Int :=
  input.take k ++ List.replicate (L - dR) 0

/-- The stream equation relating fed samples, dropped latency prefix,
committed output and the delay queue. -/
def masterEq (L : Nat) (input : List Int) (k : Nat) (s : DState) : Prop :=
  List.replicate L (0 : Int) ++ fedAllOf L input k s.dR
    = List.replicate (L - s.cD) 0 ++ s.out ++ s.pend

/-- Loop invariant of the `ProcessTrack` block loop for the delay-`L`
effect under the one-shot latency protocol. -/
def dInv (L : Nat) (input : List Int) (s : DState) : Prop :=
  (s.calls = 0 ∧ s = initD L input) ∨
  (s.calls ≠ 0 ∧ ∃ k, k ≤ input.length ∧ s.inQ = input.drop k ∧
    s.pend.length = L ∧ s.cD ≤ L ∧ s.dR ≤ L ∧
    (s.inQ ≠ [] → s.dR = L) ∧
    (s.out ≠ [] → s.cD = 0) ∧
    masterEq L input k s)

/-- Termination measure of the loop under the one-shot protocol. -/
def dMeasure (L : Nat) (s : DState) : Nat :=
  s.inQ.length + s.dR + (if s.calls = 0 then L + 1 else 0)

/-! ### Track replacement/commit (`Effect::ReplaceProcessedTracks`)

Tracks are modelled as id/content records; the engine compares track
node identities, which the `tid` field stands for, and the list surgery
of `ReplaceProcessedTracks` never alters a track's samples.  `mIMap` and
`mOMap` are the position-aligned parallel arrays, modelled as one list
of `(original?, workingCopy)` pairs (`none` marks a brand-new track
added by `AddToOutputTracks`). -/

structure MTrack where
  tid : Nat
  samples : List Int
deriving DecidableEq, Repr

/-- Model of `TrackList::Replace`: substitute `new2` for the node `old` in place
(first occurrence), preserving list order. -/
def listReplace (ts : List MTrack) (old new2 : MTrack) : List MTrack :=
  match ts with
  | [] => []
  | t :: rest => if t = old then new2 :: rest else t :: listReplace rest old new2

/-- The commit walk of `Effect::ReplaceProcessedTracks` (Effect.cpp
lines 2124-2176): iterate the surviving working list `outs` against the
aligned map `maps`; map entries whose copy was removed from the working
list have their original removed from the track list; a surviving copy
replaces its original in place, or is appended when its original is
`none`; map entries past the last surviving copy have their originals
removed. -/
def commitLoop : List MTrack → List (Option MTrack × MTrack) → List MTrack →
    List MTrack
  | tracks, maps, [] =>
    maps.foldl
      (fun ts p => match p.1 with
        | some t => ts.erase t
        | none => ts) tracks
  | tracks, [], _ :: _ => tracks
  | tracks, (orig, c) :: maps, o :: outs =>
    if c = o then
      match orig with
      | none => commitLoop (tracks ++ [c]) maps outs
      | some t => commitLoop (listReplace tracks t c) maps outs
    else
      match orig with
      | some t => commitLoop (tracks.erase t) maps (o :: outs)
      | none => commitLoop tracks maps (o :: outs)

/-- Model of `Effect::ReplaceProcessedTracks (bGoodResult)` (Effect.cpp
lines 2104-2188): on failure the working list is cleared and the maps
reset, the track list untouched; on success the commit walk runs, the
maps are reset and the (fully consumed) working list is dropped.
Returns (track list, maps, working list). -/
def replaceProcessedTracks (good : Bool) (tracks : List MTrack)
    (maps : List (Option MTrack × MTrack)) (outs : List MTrack) :
    List MTrack × List (Option MTrack × MTrack) × List MTrack :=
  if good then (commitLoop tracks maps outs, [], [])
  else (tracks, [], [])

/-- Fate of one original track under the specification's description of
a successful commit: replaced by its surviving working copy, dropped if
its copy was removed from the working list, kept as-is if it was never
copied. -/
def specFun (maps : List (Option MTrack × MTrack)) (outs : List MTrack)
    (t : MTrack) : Option MTrack :=
  match maps.find? (fun p => p.1 = some t) with
  | some p => if outs.contains p.2 then some p.2 else none
  | none => some t

/-- The brand-new tracks a successful commit appends: surviving working
copies with no original, in working-list order. -/
def specNews (maps : List (Option MTrack × MTrack)) (outs : List MTrack) :
    List MTrack :=
  maps.filterMap (fun p =>
    if p.1 = none ∧ outs.contains p.2 then some p.2 else none)

/-- The specification's description of a successful commit: each track
of the original list is replaced by its surviving working copy at the
same list position, dropped if its copy was removed from the working
list, kept as-is if it was never copied; copies with no original are
appended as new tracks, in working-list order. -/
def commitSpec (tracks : List MTrack) (maps : List (Option MTrack × MTrack))
    (outs : List MTrack) : List MTrack :=
  tracks.filterMap (specFun maps outs) ++ specNews maps outs

/-- Hypotheses under which the commit walk is exercised by the engine:
distinct track nodes, distinct copies, distinct originals, copies are
fresh nodes (not in the track list, not originals), and the surviving
working list is a subsequence of the copies. -/
def CommitHyps (tracks : List MTrack) (maps : List (Option MTrack × MTrack))
    (outs : List MTrack) : Prop :=
  tracks.Nodup ∧
  (maps.map Prod.snd).Nodup ∧
  (maps.filterMap Prod.fst).Nodup ∧
  (∀ c ∈ maps.map Prod.snd, c ∉ tracks) ∧
  (∀ c ∈ maps.map Prod.snd, some c ∉ maps.map Prod.fst) ∧
  outs.Sublist (maps.map Prod.snd)

/-- Concrete tracks for the commit witness: three originals, two of them
with working copies (one surviving, one deleted by the effect) and one
brand-new working-list entry. -/
def trackA : MTrack := ⟨0, [1, 2]⟩

def trackB : MTrack := ⟨1, [3]⟩

def trackC : MTrack := ⟨2, []⟩

def copyA : MTrack := ⟨10, [9, 9]⟩

def copyB : MTrack := ⟨11, [8]⟩

def copyD : MTrack := ⟨12, [7]⟩

/-! ### Two-pass driver, buffer sizing, buffer reallocation
(`Effect::Process`, `Effect::ProcessPass`) -/

/-- The two-pass protocol of `Effect::Process` (Effect.cpp
lines 1251-1275): `mPass = 1; if (InitPass1()) { ok = ProcessPass();
mPass = 2; if (ok && InitPass2()) ok = ProcessPass(); }`.  The driver is
parameterized by the results of `InitPass1`, `InitPass2` and
`ProcessPass` (the latter indexed by the current `mPass`, which is what
`GetPass()` returns during the run).  Returns the final `bGoodResult`
and the list of `GetPass()` values of the `ProcessPass` executions in
order. -/
def processPasses (ip1 ip2 : Bool) (pp : Nat → Bool) : Bool × List Nat :=
  if ip1 then
    let r1 := pp 1
    if r1 && ip2 then (pp 2, [1, 2]) else (r1, [1])
  else (true, [])

/-- A `ProcessPass` that always succeeds. -/
def constTruePP : Nat → Bool :=
  fun _ => true

/-- The computation `mBufferSize = ((max + (mBlockSize - 1)) / mBlockSize) * mBlockSize`
(Effect.cpp line 1361). -/
def computeBufferSize (maxv bs : Nat) : Nat :=
  ((maxv + (bs - 1)) / bs) * bs

/-- Buffer setup for one channel-group in `Effect::ProcessPass`
(lines 1354-1361): the requested maximum is the track's native max block
size times two, the effect chooses `mBlockSize = SetBlockSize(max)`, and
the buffer size is `max` rounded up to a multiple of `mBlockSize`.
Returns `(mBlockSize, mBufferSize)`. -/
def groupBufferSetup (sbs : Nat → Nat) (native : Nat) : Nat × Nat :=
  let maxv := native * 2
  let bs := sbs maxv
  (bs, computeBufferSize maxv bs)

/-- The buffer set allocated on a size change (Effect.cpp
lines 1364-1386): input buffers `[mNumAudioIn][mBufferSize]`, output
buffers `[mNumAudioOut][mBufferSize + mBlockSize]`. -/
structure BufferAlloc where
  inBuf : List (List Int)
  outBuf : List (List Int)
deriving DecidableEq, Repr

def allocBuffers (numIn numOut bufferSize blockSize : Nat) : BufferAlloc :=
  ⟨List.replicate numIn (List.replicate bufferSize 0),
   List.replicate numOut (List.replicate (bufferSize + blockSize) 0)⟩

/-- Ceiling division as the specification words it. -/
def ceilDivSpec (a b : Nat) : Nat :=
  if b ∣ a then a / b else a / b + 1

/-- Buffer size computed for a group given the rate (set through
`SetSampleRate`, which the effect client may observe) and the track's
native max block size. -/
def groupBufSize (sbs : Nat → Nat → Nat) (rate native : Nat) : Nat :=
  computeBufferSize (native * 2) (sbs rate (native * 2))

/-- The per-group reallocation decisions of one `ProcessPass`:
`mBufferSize` starts at 0 and the buffer set is (re)allocated exactly
when the computed size differs from the previous group's
(`prevBufferSize != mBufferSize`, Effect.cpp lines 1287-1288,
1360-1364). -/
def passAllocGo (sbs : Nat → Nat → Nat) : Nat → List (Nat × Nat) → List Bool
  | _, [] => []
  | prev, g :: gs =>
    let b := groupBufSize sbs g.1 g.2
    decide (prev ≠ b) :: passAllocGo sbs b gs

def passAllocFlags (sbs : Nat → Nat → Nat) (gs : List (Nat × Nat)) :
    List Bool :=
  passAllocGo sbs 0 gs

/-- The default `Effect::SetBlockSize` accepts the requested size
regardless of the sample rate (Effect.cpp lines 321-331). -/
def defaultSetBlockSize : Nat → Nat → Nat :=
  fun _ maxv => maxv

/-! ### The block loop with an arbitrary effect oracle
(`Effect::ProcessTrack` error paths, C7/C8) -/

/-- Outcome of one `ProcessBlock` call: a normal return carrying the
output block written into the output buffer and the sample count the
effect claims to have processed, an `AudacityException`, or any other
thrown fault. -/
inductive BlockOutcome where
  | ok (outBlock : List Int) (processed : Nat)
  | audacityExn
  | otherExn
deriving DecidableEq, Repr

structure OState where
  inQ : List Int
  dR : Nat
  cD : Nat
  calls : Nat
  out : List Int
deriving DecidableEq, Repr

inductive StepRes where
  | next (s : OState)
  | fail
  | raised
deriving DecidableEq, Repr

/-- One iteration of the `ProcessTrack` block loop with an effect
oracle: the `try { ProcessBlock } catch (AudacityException) { throw }
catch (...) { return false }` of Effect.cpp lines 1600-1619, then
`wxASSERT(processed == curBlockSize); wxUnusedVar(processed);`
(lines 1620-1621) — the claimed count is bound and ignored — then
latency compensation and output accumulation. -/
def oStep (ty : EffectType) (B : Nat) (lat : Nat → Nat)
    (eff : Nat → List Int → BlockOutcome) (s : OState) : StepRes :=
  let c := computeBlock B s.inQ s.dR
  match eff s.calls c.fed with
  | BlockOutcome.audacityExn => StepRes.raised
  | BlockOutcome.otherExn => StepRes.fail
  | BlockOutcome.ok outBlock _processed =>
    let produced := outBlock.take c.cbs
    let r := compensate ty (lat s.calls) s.cD c.dR2 c.cbs produced
    StepRes.next ⟨c.inQ2, r.delayRemaining, r.curDelay, s.calls + 1,
      s.out ++ r.emitted⟩

inductive RunResult where
  | finished (s : OState)
  | failed
  | raised
  | fuelOut
deriving DecidableEq, Repr

/-- Fuel-indexed run of the oracle loop.  `failed` models `ProcessTrack`
returning `false` for the group; `raised` models an
`AudacityException` propagating out of the loop. -/
def oRun (ty : EffectType) (B : Nat) (lat : Nat → Nat)
    (eff : Nat → List Int → BlockOutcome) : Nat → OState → RunResult
  | 0, s => if s.inQ = [] ∧ s.dR = 0 then RunResult.finished s
            else RunResult.fuelOut
  | f + 1, s =>
    if s.inQ = [] ∧ s.dR = 0 then RunResult.finished s
    else
      match oStep ty B lat eff s with
      | StepRes.next s2 => oRun ty B lat eff f s2
      | StepRes.fail => RunResult.failed
      | StepRes.raised => RunResult.raised

/-- The fate of the track list after `Effect::Process` and the
`DoEffect` scope-exit cleanup (Effect.cpp lines 1129-1140, 1272): a
normally-returning run calls `ReplaceProcessedTracks(bGoodResult)`
inside `Process`; a propagating `AudacityException` skips that call and
the `finally` cleanup in `DoEffect` calls `ReplaceProcessedTracks(false)`
before the exception continues upward.  The Bool records whether the
exception escaped `DoEffect`. -/
def doEffectTracks (tracks : List MTrack)
    (maps : List (Option MTrack × MTrack)) (outs : List MTrack)
    (r : RunResult) : Bool × List MTrack :=
  match r with
  | RunResult.raised => (true, (replaceProcessedTracks false tracks maps outs).1)
  | RunResult.failed => (false, (replaceProcessedTracks false tracks maps outs).1)
  | RunResult.finished _ => (false, (replaceProcessedTracks true tracks maps outs).1)
  | RunResult.fuelOut => (false, tracks)

/-- An effect oracle that always throws the application-fatal
exception. -/
def effAlwaysRaises : Nat → List Int → BlockOutcome :=
  fun _ _ => BlockOutcome.audacityExn

/-- Two oracles whose normal returns carry the same output blocks,
differing only in the claimed processed counts (and agreeing on thrown
outcomes). -/
def outcomeSameBlock : BlockOutcome → BlockOutcome → Prop
  | BlockOutcome.ok b _, BlockOutcome.ok b2 _ => b = b2
  | BlockOutcome.audacityExn, BlockOutcome.audacityExn => True
  | BlockOutcome.otherExn, BlockOutcome.otherExn => True
  | _, _ => False

/-- An identity effect that claims the correct count. -/
def effIdRightCount : Nat → List Int → BlockOutcome :=
  fun _ blk => BlockOutcome.ok blk blk.length

/-- The same identity effect claiming a wrong count from every call. -/
def effIdWrongCount : Nat → List Int → BlockOutcome :=
  fun _ blk => BlockOutcome.ok blk (blk.length + 999)

/-! ### Channel grouping of `Effect::ProcessPass` (C9) -/

inductive Chan where
  | left
  | right
  | mono
deriving DecidableEq, Repr

structure STrack where
  tid : Nat
  chan : Chan
  selected : Bool
deriving DecidableEq, Repr

/-- The track iteration of `Effect::ProcessPass` (Effect.cpp
lines 1293-1349) over a track list of channel-groups (a leader plus an
optional right channel, per the data model's 1-or-2-members invariant):
with `mNumAudioIn > 1` the pass iterates group leaders
(`mOutputTracks->Leaders()`), visiting each selected leader once with
its second channel as `right`; otherwise it iterates every track
(`mOutputTracks->Any()`), visiting each selected track alone with
`right` null.  Each visit is one `ProcessTrack` invocation. -/
def passVisits (numAudioIn : Nat)
    (groups : List (STrack × Option STrack)) :
    List (STrack × Option STrack) :=
  if 1 < numAudioIn then
    groups.filter (fun g => g.1.selected)
  else
    ((groups.map (fun g => g.1 :: g.2.toList)).join.filter
      (fun t => t.selected)).map (fun t => (t, none))

/-- One `ProcessBlock` call of a two-channel `ProcessTrack` invocation:
the single `curBlockSize`, and the lengths of the left and right channel
blocks handed to the effect. -/
structure StereoCall where
  cbs : Nat
  lenL : Nat
  lenR : Nat
deriving DecidableEq, Repr

/-- Call log of the block loop run over a stereo pair: both channels are
read and consumed with the same positions and the same `curBlockSize`
every iteration (Effect.cpp lines 1532-1543, 1604, 1626-1631); the block
computation is applied to each channel's queue, which stays in lockstep
because a single `curBlockSize` advances both. -/
def stereoCallLog (B : Nat) (lat : Nat → Nat) :
    Nat → Nat → List Int → List Int → Nat → List StereoCall
  | 0, _, _, _, _ => []
  | f + 1, n, inL, inR, dR =>
    if inL = [] ∧ dR = 0 then []
    else
      ⟨(computeBlock B inL dR).cbs, (computeBlock B inL dR).fed.length,
        (computeBlock B inR dR).fed.length⟩
        :: stereoCallLog B lat f (n + 1) (computeBlock B inL dR).inQ2
            (computeBlock B inR dR).inQ2
            ((computeBlock B inL dR).dR2 + lat n)

/-- A selected stereo pair for the witness. -/
def leftTrack : STrack := ⟨0, Chan.left, true⟩

def rightTrack : STrack := ⟨1, Chan.right, true⟩

theorem compensate_eq_spec (ty : EffectType) (lat cD dR cbs : Nat)
    (produced : List Int) :
    compensate ty lat cD dR cbs produced
      = compensateSpec ty lat cD dR cbs produced := by
  unfold compensate compensateSpec
  rcases ty <;> simp [ge_iff_le]

/-- C3: in the block loop, only processor-type effects perform delay
compensation after a `ProcessBlock` call; `curDelay` and `delayRemaining`
each grow by the reported latency, then either the whole block is dropped
(`curDelay >= curBlockSize`) or the first `curDelay` output samples are
removed by a left shift, shrinking `curBlockSize` and resetting
`curDelay` to zero.  Generator- and analyzer-type effects leave
everything unchanged. -/
theorem c3_compensation (ty : EffectType) (lat cD dR cbs : Nat)
    (produced : List Int) (hlen : produced.length = cbs) :
    (ty = EffectType.process →
      (cD + lat ≥ cbs →
        compensate ty lat cD dR cbs produced
          = ⟨(cD + lat) - cbs, dR + lat, 0, []⟩) ∧
      (cD + lat < cbs →
        compensate ty lat cD dR cbs produced
          = ⟨0, dR + lat, cbs - (cD + lat),
              produced.drop (cD + lat)⟩ ∧
        (produced.drop (cD + lat)).length = cbs - (cD + lat))) ∧
    (ty ≠ EffectType.process →
      compensate ty lat cD dR cbs produced = ⟨cD, dR, cbs, produced⟩) := by
  constructor
  · intro hty
    subst hty
    constructor
    · intro hge
      simp [compensate, Nat.le_of_lt, ge_iff_le] at hge ⊢
      simp [hge]
    · intro hlt
      have hnot : ¬ cbs ≤ cD + lat := Nat.not_le_of_lt hlt
      constructor
      · simp [compensate, hnot]
      · simp [hlen]
  · intro hty
    simp [compensate, hty]

theorem c3_compensation_witness :
    (2 : Nat) + 1 ≥ 3 ∧
    compensate EffectType.process 1 2 0 3 [10, 20, 30]
      = ⟨0, 1, 0, []⟩ := by
  refine ⟨by decide, ?_⟩
  have h := (c3_compensation EffectType.process 1 2 0 3 [10, 20, 30]
    (by decide)).1 rfl
  exact h.1 (by decide)

theorem computeBlock_fed_length (B : Nat) (inQ : List Int) (dR : Nat)
    (hB : 1 ≤ B) :
    (computeBlock B inQ dR).fed.length = (computeBlock B inQ dR).cbs := by
  unfold computeBlock BlockCalc.fed
  by_cases h0 : inQ.length = 0
  · simp [h0, Nat.min_le_left]
  · by_cases hle : B ≤ inQ.length
    · simp [h0, hle, List.length_take, Nat.min_le_left,
        Nat.min_eq_left hle]
    · have hlt : inQ.length < B := Nat.lt_of_not_le hle
      simp only [h0, hle, if_false, if_neg]
      simp [List.length_take, List.length_append]

/-- C4: with input remaining, `curBlockSize` starts as
`min mBlockSize inputRemaining`; when that consumes the final partial
input block, the buffer window is zero padded up to `mBlockSize`, up to
`mBlockSize - curBlockSize` delay samples (capped by `delayRemaining`)
are folded into the same call, `delayRemaining` drops and `curBlockSize`
grows by exactly the folded count, and the samples fed to the effect are
the remaining input once each followed by exactly the folded zeros. -/
theorem c4_blockCalc (B : Nat) (inQ : List Int) (dR : Nat)
    (hB : 1 ≤ B) (hne : inQ ≠ []) :
    (B ≤ inQ.length →
      computeBlock B inQ dR
        = ⟨min B inQ.length, inQ.take B, inQ.drop B, dR⟩) ∧
    (inQ.length < B →
      (computeBlock B inQ dR).buf
          = inQ ++ List.replicate (B - inQ.length) 0 ∧
      (computeBlock B inQ dR).buf.length = B ∧
      (computeBlock B inQ dR).cbs
          = min B inQ.length + min (B - inQ.length) dR ∧
      min (B - inQ.length) dR ≤ B - min B inQ.length ∧
      (computeBlock B inQ dR).dR2 + min (B - inQ.length) dR = dR ∧
      (computeBlock B inQ dR).fed
          = inQ ++ List.replicate (min (B - inQ.length) dR) 0 ∧
      (computeBlock B inQ dR).inQ2 = []) := by
  have h0 : inQ.length ≠ 0 := by
    simpa [List.length_eq_zero] using hne
  constructor
  · intro hle
    simp [computeBlock, h0, hle, Nat.min_eq_left hle]
  · intro hlt
    have hnle : ¬ B ≤ inQ.length := Nat.not_le_of_lt hlt
    have hminB : min B inQ.length = inQ.length :=
      Nat.min_eq_right (Nat.le_of_lt hlt)
    refine ⟨?_, ?_, ?_, ?_, ?_, ?_, ?_⟩
    · simp [computeBlock, h0, hnle]
    · simp [computeBlock, h0, hnle, List.length_append]
      omega
    · simp [computeBlock, h0, hnle, hminB]
    · have : min (B - inQ.length) dR ≤ B - inQ.length :=
        Nat.min_le_left _ _
      omega
    · simp only [computeBlock, h0, hnle, if_false, if_neg]
      simp
    · simp only [computeBlock, h0, hnle, if_false, if_neg, BlockCalc.fed]
      rw [List.take_append_eq_append_take]
      have h1 : inQ.length ≤ inQ.length + min (B - inQ.length) dR :=
        Nat.le_add_right _ _
      rw [List.take_of_length_le h1, List.take_replicate]
      congr 2
      omega
    · simp [computeBlock, h0, hnle]

theorem c4_blockCalc_witness :
    (1 ≤ 4 ∧ ([5, 7] : List Int) ≠ []) ∧
    (computeBlock 4 [5, 7] 10).fed
      = [5, 7] ++ List.replicate (min (4 - ([5, 7] : List Int).length) 10) 0 := by
  refine ⟨⟨by decide, by decide⟩, ?_⟩
  exact ((c4_blockCalc 4 [5, 7] 10 (by decide) (by decide)).2
    (by decide)).2.2.2.2.2.1

theorem dRun_const_none (B L : Nat) (hL : 1 ≤ L) :
    ∀ f s, (s.inQ ≠ [] ∨ s.dR ≠ 0) →
      dRun B (constLat L) f s = none := by
  intro f
  induction f with
  | zero =>
    intro s hs
    have : ¬ (s.inQ = [] ∧ s.dR = 0) := by
      rcases hs with h | h <;> simp [h]
    simp [dRun, this]
  | succ f ih =>
    intro s hs
    have hnot : ¬ (s.inQ = [] ∧ s.dR = 0) := by
      rcases hs with h | h <;> simp [h]
    have hstep : (dStep B (constLat L) s).dR ≠ 0 := by
      have hval : (dStep B (constLat L) s).dR
          = (computeBlock B s.inQ s.dR).dR2 + L := by
        simp only [dStep, constLat, compensate, if_pos rfl]
        by_cases hc : (computeBlock B s.inQ s.dR).cbs ≤ s.cD + L <;>
          simp [hc]
      omega
    rw [dRun, if_neg hnot]
    exact ih _ (Or.inr hstep)

/-- C2, counterexample: for an effect whose `GetLatency()` literally
reports the constant `L = 1` on every call (`constLat`), the block loop
never terminates — `delayRemaining` is replenished by every call, so the
loop condition never becomes false and no amount of fuel completes the
run (here at `mBlockSize = 2` over the two-sample input `[5, 7]`, one of
the claim's instances `L = blockSize - 1`). -/
theorem c2_latency_counterexample :
    ¬ ∃ f s', dRun 2 (constLat 1) f (initD 1 [5, 7]) = some s' := by
  rintro ⟨f, s', h⟩
  have := dRun_const_none 2 1 (by decide) f (initD 1 [5, 7])
    (Or.inl (by decide))
  rw [this] at h
  exact Option.noConfusion h

theorem replicate_split (L cD : Nat) (h : cD ≤ L) :
    List.replicate L (0 : Int)
      = List.replicate (L - cD) 0 ++ List.replicate cD 0 := by
  rw [← List.replicate_add]
  congr 1
  omega

theorem drop_replicate_append (n m : Nat) (l : List Int) (h : n ≤ m) :
    (List.replicate m (0 : Int) ++ l).drop n
      = List.replicate (m - n) 0 ++ l := by
  rw [List.drop_append_eq_append_drop]
  have h1 : n - (List.replicate m (0 : Int)).length = 0 := by
    simp
    omega
  rw [h1, List.drop_zero, List.drop_replicate]

theorem master_step (L cbs cD : Nat) (fedAll fed out pend : List Int)
    (hpend : pend.length = L) (hcD : cD ≤ L) (hcbs : 1 ≤ cbs)
    (houtcd : out ≠ [] → cD = 0)
    (hm : List.replicate L (0 : Int) ++ fedAll
            = List.replicate (L - cD) 0 ++ out ++ pend) :
    (cbs ≤ cD →
       out = [] ∧
       List.replicate L (0 : Int) ++ (fedAll ++ fed)
         = List.replicate (L - (cD - cbs)) 0 ++ out
             ++ (pend ++ fed).drop cbs) ∧
    (cD < cbs →
       List.replicate L (0 : Int) ++ (fedAll ++ fed)
         = List.replicate (L - 0) 0
             ++ (out ++ ((pend ++ fed).take cbs).drop cD)
             ++ (pend ++ fed).drop cbs) := by
  constructor
  · intro hle
    have hout : out = [] := by
      by_contra hne
      have := houtcd hne
      omega
    subst hout
    simp only [List.append_nil] at hm
    rw [replicate_split L cD hcD, List.append_assoc] at hm
    have hpend2 : pend = List.replicate cD (0 : Int) ++ fedAll :=
      (List.append_cancel_left hm).symm
    refine ⟨rfl, ?_⟩
    rw [hpend2, List.append_assoc (List.replicate cD (0 : Int)) fedAll fed,
      drop_replicate_append cbs cD (fedAll ++ fed) hle, List.append_nil,
      ← List.append_assoc (List.replicate (L - (cD - cbs)) (0 : Int))
        (List.replicate (cD - cbs) 0) (fedAll ++ fed),
      ← List.replicate_add,
      show L - (cD - cbs) + (cD - cbs) = L from by omega]
  · intro hlt
    by_cases hout : out = []
    · subst hout
      simp only [List.append_nil] at hm
      rw [replicate_split L cD hcD, List.append_assoc] at hm
      have hpend2 : pend = List.replicate cD (0 : Int) ++ fedAll :=
        (List.append_cancel_left hm).symm
      have hdropcbs : (pend ++ fed).drop cbs
          = (fedAll ++ fed).drop (cbs - cD) := by
        rw [hpend2, List.append_assoc, List.drop_append_eq_append_drop]
        have h1 : (List.replicate cD (0 : Int)).drop cbs = [] := by
          apply List.drop_eq_nil_of_le
          simp
          omega
        rw [h1]
        simp
      have htake : ((pend ++ fed).take cbs).drop cD
          = (fedAll ++ fed).take (cbs - cD) := by
        rw [hpend2, List.append_assoc, List.take_append_eq_append_take]
        have h1 : (List.replicate cD (0 : Int)).take cbs
            = List.replicate cD 0 := by
          apply List.take_of_length_le
          simp
          omega
        have h2 : cbs - (List.replicate cD (0 : Int)).length = cbs - cD := by
          simp
        rw [h1, h2, drop_replicate_append cD cD _ (le_refl cD)]
        simp
      rw [hdropcbs, htake]
      simp only [List.nil_append, Nat.sub_zero, List.append_assoc,
        List.take_append_drop]
    · have hcd0 : cD = 0 := houtcd hout
      subst hcd0
      simp only [Nat.sub_zero] at hm
      rw [List.append_assoc] at hm
      have hm2 : fedAll = out ++ pend := List.append_cancel_left hm
      simp only [List.drop_zero, Nat.sub_zero]
      rw [hm2]
      simp only [List.append_assoc, List.take_append_drop]

theorem computeBlock_full (B : Nat) (inQ : List Int) (dR : Nat)
    (h0 : inQ ≠ []) (h : B ≤ inQ.length) :
    computeBlock B inQ dR = ⟨B, inQ.take B, inQ.drop B, dR⟩ := by
  have h0' : inQ.length ≠ 0 := by simpa [List.length_eq_zero] using h0
  simp [computeBlock, h0', h]

theorem computeBlock_lastBlock (B : Nat) (inQ : List Int) (dR : Nat)
    (h0 : inQ ≠ []) (h : inQ.length < B) :
    computeBlock B inQ dR
      = ⟨inQ.length + min (B - inQ.length) dR,
         inQ ++ List.replicate (B - inQ.length) 0, [],
         dR - min (B - inQ.length) dR⟩ := by
  have h0' : inQ.length ≠ 0 := by simpa [List.length_eq_zero] using h0
  have h' : ¬ B ≤ inQ.length := Nat.not_le_of_lt h
  simp [computeBlock, h0', h']

theorem computeBlock_drain (B : Nat) (dR : Nat) :
    computeBlock B [] dR
      = ⟨min B dR, List.replicate B 0, [], dR - min B dR⟩ := by
  simp [computeBlock]

theorem fed_full (B : Nat) (inQ : List Int) (dR : Nat)
    (h0 : inQ ≠ []) (h : B ≤ inQ.length) :
    (computeBlock B inQ dR).fed = inQ.take B := by
  rw [computeBlock_full B inQ dR h0 h]
  simp [BlockCalc.fed, List.take_take]

theorem fed_lastBlock (B : Nat) (inQ : List Int) (dR : Nat)
    (h0 : inQ ≠ []) (h : inQ.length < B) :
    (computeBlock B inQ dR).fed
      = inQ ++ List.replicate (min (B - inQ.length) dR) 0 := by
  rw [computeBlock_lastBlock B inQ dR h0 h]
  simp only [BlockCalc.fed]
  rw [List.take_append_eq_append_take]
  have h1 : inQ.length ≤ inQ.length + min (B - inQ.length) dR :=
    Nat.le_add_right _ _
  rw [List.take_of_length_le h1, List.take_replicate]
  congr 2
  omega

theorem fed_drain (B : Nat) (dR : Nat) :
    (computeBlock B [] dR).fed = List.replicate (min B dR) 0 := by
  rw [computeBlock_drain]
  simp only [BlockCalc.fed, List.take_replicate]
  congr 1
  omega

theorem dStep_dropCase (B : Nat) (lat : Nat → Nat) (s : DState)
    (h : (computeBlock B s.inQ s.dR).cbs ≤ s.cD + lat s.calls) :
    dStep B lat s
      = ⟨(computeBlock B s.inQ s.dR).inQ2,
         (computeBlock B s.inQ s.dR).dR2 + lat s.calls,
         s.cD + lat s.calls - (computeBlock B s.inQ s.dR).cbs,
         s.calls + 1,
         (s.pend ++ (computeBlock B s.inQ s.dR).fed).drop
           (computeBlock B s.inQ s.dR).cbs,
         s.out⟩ := by
  simp [dStep, compensate, h]

theorem dStep_shiftCase (B : Nat) (lat : Nat → Nat) (s : DState)
    (h : s.cD + lat s.calls < (computeBlock B s.inQ s.dR).cbs) :
    dStep B lat s
      = ⟨(computeBlock B s.inQ s.dR).inQ2,
         (computeBlock B s.inQ s.dR).dR2 + lat s.calls,
         0,
         s.calls + 1,
         (s.pend ++ (computeBlock B s.inQ s.dR).fed).drop
           (computeBlock B s.inQ s.dR).cbs,
         s.out ++ (((s.pend ++ (computeBlock B s.inQ s.dR).fed).take
             (computeBlock B s.inQ s.dR).cbs).drop
           (s.cD + lat s.calls))⟩ := by
  have h' : ¬ (computeBlock B s.inQ s.dR).cbs ≤ s.cD + lat s.calls :=
    Nat.not_le_of_lt h
  simp [dStep, compensate, h']

theorem dInv_preserved (B L : Nat) (input : List Int) (hB : 1 ≤ B)
    (s : DState) (hinv : dInv L input s)
    (hnd : ¬ (s.inQ = [] ∧ s.dR = 0)) :
    dInv L input (dStep B (oneShot L) s) ∧
    dMeasure L (dStep B (oneShot L) s) < dMeasure L s := by
  rcases hinv with ⟨hc0, hs⟩ | ⟨hc, k, hk, hq, hpendL, hcD, hdR, hphase, houtcd, hmaster⟩
  · -- First call: the state is pristine and `GetLatency()` reports `L`.
    subst hs
    have hne : input ≠ [] := by
      intro h
      exact hnd (by simp [initD, h])
    have hlen1 : 1 ≤ input.length := by
      cases input with
      | nil => exact absurd rfl hne
      | cons a l => simp
    by_cases hfull : B ≤ input.length
    · -- Full first block.
      have hcb : computeBlock B (initD L input).inQ (initD L input).dR
          = ⟨B, input.take B, input.drop B, 0⟩ := by
        simpa [initD] using computeBlock_full B input 0 hne hfull
      have hfed : (computeBlock B (initD L input).inQ
          (initD L input).dR).fed = input.take B := by
        rw [hcb]
        simp [BlockCalc.fed, List.take_take]
      have hms := master_step L B L [] (input.take B) []
        (List.replicate L 0) (by simp) (le_refl L) hB
        (fun h => absurd rfl h) (by simp)
      by_cases hbr : B ≤ L
      · -- Whole block dropped as latency.
        have hstep := dStep_dropCase B (oneShot L) (initD L input)
          (by rw [hcb]; simp [initD, oneShot]; exact hbr)
        rw [hstep, hfed, hcb]
        have hM := (hms.1 hbr).2
        constructor
        · refine Or.inr ⟨by simp [initD], B, hfull, by simp [initD], ?_,
            ?_, ?_, ?_, ?_, ?_⟩
          · simp [initD, List.length_drop, List.length_take] <;> omega
          · simp [initD, oneShot] <;> omega
          · simp [initD, oneShot]
          · intro _
            simp [initD, oneShot]
          · simp [initD]
          · simp only [masterEq, fedAllOf, initD, oneShot]
            simpa [Nat.sub_self] using hM
        · simp [dMeasure, initD, oneShot] <;> omega
      · -- Shift: the first `L` produced samples are removed.
        have hlt : L < B := Nat.lt_of_not_le hbr
        have hstep := dStep_shiftCase B (oneShot L) (initD L input)
          (by rw [hcb]; simp [initD, oneShot]; exact hlt)
        rw [hstep, hfed, hcb]
        have hM := hms.2 hlt
        constructor
        · refine Or.inr ⟨by simp [initD], B, hfull, by simp [initD], ?_,
            ?_, ?_, ?_, ?_, ?_⟩
          · simp [initD, List.length_drop, List.length_take] <;> omega
          · simp [initD]
          · simp [initD, oneShot]
          · intro _
            simp [initD, oneShot]
          · intro _
            simp [initD]
          · simp only [masterEq, fedAllOf, initD, oneShot]
            simpa [Nat.sub_self] using hM
        · simp [dMeasure, initD, oneShot] <;> omega
    · -- Partial (and only) input block; `delayRemaining = 0`, no fold.
      have hpl : input.length < B := Nat.lt_of_not_le hfull
      have hcb : computeBlock B (initD L input).inQ (initD L input).dR
          = ⟨input.length, input ++ List.replicate (B - input.length) 0,
             [], 0⟩ := by
        have := computeBlock_lastBlock B input 0 hne hpl
        simpa [initD] using this
      have hfed : (computeBlock B (initD L input).inQ
          (initD L input).dR).fed = input := by
        have := fed_lastBlock B input 0 hne hpl
        simp only [initD] at this ⊢
        rw [this]
        simp
      have hms := master_step L input.length L [] input []
        (List.replicate L 0) (by simp) (le_refl L) hlen1
        (fun h => absurd rfl h) (by simp)
      by_cases hbr : input.length ≤ L
      · have hstep := dStep_dropCase B (oneShot L) (initD L input)
          (by rw [hcb]; simp [initD, oneShot]; exact hbr)
        rw [hstep, hfed, hcb]
        have hM := (hms.1 hbr).2
        constructor
        · refine Or.inr ⟨by simp [initD], input.length, le_refl _,
            by simp [initD], ?_, ?_, ?_, ?_, ?_, ?_⟩
          · simp [initD, List.length_drop] <;> omega
          · simp [initD, oneShot] <;> omega
          · simp [initD, oneShot]
          · intro h
            simp [initD] at h
          · simp [initD]
          · simp only [masterEq, fedAllOf, initD, oneShot]
            simpa [Nat.sub_self] using hM
        · simp [dMeasure, initD, oneShot] <;> omega
      · have hlt : L < input.length := Nat.lt_of_not_le hbr
        have hstep := dStep_shiftCase B (oneShot L) (initD L input)
          (by rw [hcb]; simp [initD, oneShot]; exact hlt)
        rw [hstep, hfed, hcb]
        have hM := hms.2 hlt
        constructor
        · refine Or.inr ⟨by simp [initD], input.length, le_refl _,
            by simp [initD], ?_, ?_, ?_, ?_, ?_, ?_⟩
          · simp [initD, List.length_drop] <;> omega
          · simp [initD]
          · simp [initD, oneShot]
          · intro h
            simp [initD] at h
          · intro _
            simp [initD]
          · simp only [masterEq, fedAllOf, initD, oneShot]
            simpa [Nat.sub_self] using hM
        · simp [dMeasure, initD, oneShot] <;> omega
  · -- Later calls: `GetLatency()` reports `0`.
    have hlat : oneShot L s.calls = 0 := by simp [oneShot, hc]
    by_cases hqe : s.inQ = []
    · -- Drain phase.
      have hdRpos : s.dR ≠ 0 := fun h => hnd ⟨hqe, h⟩
      have hcb : computeBlock B s.inQ s.dR
          = ⟨min B s.dR, List.replicate B 0, [], s.dR - min B s.dR⟩ := by
        rw [hqe]
        exact computeBlock_drain B s.dR
      have hfed : (computeBlock B s.inQ s.dR).fed
          = List.replicate (min B s.dR) 0 := by
        rw [hqe]
        exact fed_drain B s.dR
      have hcbs1 : 1 ≤ min B s.dR := by
        omega
      have hfa : fedAllOf L input k (s.dR - min B s.dR)
          = fedAllOf L input k s.dR ++ List.replicate (min B s.dR) 0 := by
        simp only [fedAllOf, List.append_assoc, ← List.replicate_add]
        congr 3
        omega
      have hms := master_step L (min B s.dR) s.cD
        (fedAllOf L input k s.dR) (List.replicate (min B s.dR) 0)
        s.out s.pend hpendL hcD hcbs1 houtcd hmaster
      by_cases hbr : min B s.dR ≤ s.cD
      · have hstep := dStep_dropCase B (oneShot L) s
          (by rw [hcb, hlat]; simpa using hbr)
        rw [hstep, hfed, hcb]
        have hM := (hms.1 hbr).2
        have hout : s.out = [] := (hms.1 hbr).1
        constructor
        · refine Or.inr ⟨by simp, k, hk, (hq.symm.trans hqe).symm, ?_,
            ?_, ?_, ?_, ?_, ?_⟩
          · simp [List.length_drop, hpendL] <;> omega
          · simp [hlat] <;> omega
          · simp [hlat] <;> omega
          · intro h
            simp at h
          · simp [hout]
          · simp only [masterEq, hlat, Nat.add_zero]
            rw [hfa]
            simpa [hout] using hM
        · simp [dMeasure, hlat, hc, hqe] <;> omega
      · have hlt : s.cD < min B s.dR := Nat.lt_of_not_le hbr
        have hstep := dStep_shiftCase B (oneShot L) s
          (by rw [hcb, hlat]; simpa using hlt)
        rw [hstep, hfed, hcb]
        have hM := hms.2 hlt
        constructor
        · refine Or.inr ⟨by simp, k, hk, (hq.symm.trans hqe).symm, ?_,
            ?_, ?_, ?_, ?_, ?_⟩
          · simp [List.length_drop, hpendL] <;> omega
          · simp
          · simp [hlat] <;> omega
          · intro h
            simp at h
          · intro _
            rfl
          · simp only [masterEq, hlat, Nat.add_zero]
            rw [hfa]
            simpa using hM
        · simp [dMeasure, hlat, hc, hqe] <;> omega
    · -- Input phase.
      have hdRL : s.dR = L := hphase hqe
      have hql : 1 ≤ s.inQ.length := by
        cases hx : s.inQ with
        | nil => exact absurd hx hqe
        | cons a l => simp [hx]
      by_cases hfull : B ≤ s.inQ.length
      · -- Full block.
        have hcb : computeBlock B s.inQ s.dR
            = ⟨B, s.inQ.take B, s.inQ.drop B, s.dR⟩ :=
          computeBlock_full B s.inQ s.dR hqe hfull
        have hfed : (computeBlock B s.inQ s.dR).fed = s.inQ.take B :=
          fed_full B s.inQ s.dR hqe hfull
        have hkB : k + B ≤ input.length := by
          have := List.length_drop k input
          rw [← hq] at this
          omega
        have hfa : fedAllOf L input (k + B) s.dR
            = fedAllOf L input k s.dR ++ s.inQ.take B := by
          simp only [fedAllOf, hdRL, Nat.sub_self, List.replicate_zero,
            List.append_nil, hq]
          rw [List.take_add]
        have hms := master_step L B s.cD
          (fedAllOf L input k s.dR) (s.inQ.take B)
          s.out s.pend hpendL hcD hB houtcd hmaster
        have hdq : (s.inQ).drop B = input.drop (k + B) := by
          rw [hq, List.drop_drop, Nat.add_comm]
        by_cases hbr : B ≤ s.cD
        · have hstep := dStep_dropCase B (oneShot L) s
            (by rw [hcb, hlat]; simpa using hbr)
          rw [hstep, hfed, hcb]
          have hM := (hms.1 hbr).2
          have hout : s.out = [] := (hms.1 hbr).1
          constructor
          · refine Or.inr ⟨by simp, k + B, hkB, by simpa using hdq, ?_,
              ?_, ?_, ?_, ?_, ?_⟩
            · simp [hfed, List.length_drop, hpendL, List.length_take] <;> omega
            · simp [hlat] <;> omega
            · simp [hlat, hdRL] <;> omega
            · intro _
              simp [hlat, hdRL]
            · simp [hout]
            · simp only [masterEq, hlat, Nat.add_zero]
              rw [hfa]
              simpa [hout] using hM
          · simp [dMeasure, hlat, hc, List.length_drop] <;> omega
        · have hlt : s.cD < B := Nat.lt_of_not_le hbr
          have hstep := dStep_shiftCase B (oneShot L) s
            (by rw [hcb, hlat]; simpa using hlt)
          rw [hstep, hfed, hcb]
          have hM := hms.2 hlt
          constructor
          · refine Or.inr ⟨by simp, k + B, hkB, by simpa using hdq, ?_,
              ?_, ?_, ?_, ?_, ?_⟩
            · simp [hfed, List.length_drop, hpendL, List.length_take] <;> omega
            · simp
            · simp [hlat, hdRL] <;> omega
            · intro _
              simp [hlat, hdRL]
            · intro _
              rfl
            · simp only [masterEq, hlat, Nat.add_zero]
              rw [hfa]
              simpa using hM
          · simp [dMeasure, hlat, hc, List.length_drop] <;> omega
      · -- Final partial block with fold.
        have hpl : s.inQ.length < B := Nat.lt_of_not_le hfull
        have hcb : computeBlock B s.inQ s.dR
            = ⟨s.inQ.length + min (B - s.inQ.length) s.dR,
               s.inQ ++ List.replicate (B - s.inQ.length) 0, [],
               s.dR - min (B - s.inQ.length) s.dR⟩ :=
          computeBlock_lastBlock B s.inQ s.dR hqe hpl
        have hfed : (computeBlock B s.inQ s.dR).fed
            = s.inQ ++ List.replicate (min (B - s.inQ.length) s.dR) 0 :=
          fed_lastBlock B s.inQ s.dR hqe hpl
        have hkQ : k + s.inQ.length = input.length := by
          have := List.length_drop k input
          rw [← hq] at this
          omega
        have hfold : min (B - s.inQ.length) s.dR ≤ s.dR :=
          Nat.min_le_right _ _
        have hcbs1 : 1 ≤ s.inQ.length + min (B - s.inQ.length) s.dR := by
          omega
        have hfa : fedAllOf L input input.length
              (s.dR - min (B - s.inQ.length) s.dR)
            = fedAllOf L input k s.dR
              ++ (s.inQ ++ List.replicate (min (B - s.inQ.length) s.dR) 0) := by
          simp only [fedAllOf, hdRL, Nat.sub_self, List.replicate_zero,
            List.append_nil, List.take_length]
          rw [← List.append_assoc, hq]
          rw [show input.take k ++ input.drop k = input from
            List.take_append_drop k input]
          congr 2
          omega
        have hms := master_step L
          (s.inQ.length + min (B - s.inQ.length) s.dR) s.cD
          (fedAllOf L input k s.dR)
          (s.inQ ++ List.replicate (min (B - s.inQ.length) s.dR) 0)
          s.out s.pend hpendL hcD hcbs1 houtcd hmaster
        by_cases hbr : s.inQ.length + min (B - s.inQ.length) s.dR ≤ s.cD
        · have hstep := dStep_dropCase B (oneShot L) s
            (by rw [hcb, hlat]; simpa using hbr)
          rw [hstep, hfed, hcb]
          have hM := (hms.1 hbr).2
          have hout : s.out = [] := (hms.1 hbr).1
          constructor
          · refine Or.inr ⟨by simp, input.length, le_refl _,
              by simp, ?_, ?_, ?_, ?_, ?_, ?_⟩
            · simp [hfed, List.length_drop, hpendL, List.length_append] <;> omega
            · simp [hlat] <;> omega
            · simp [hlat, hdRL] <;> omega
            · intro h
              simp at h
            · simp [hout]
            · simp only [masterEq, hlat, Nat.add_zero]
              rw [hfa]
              simpa [hout] using hM
          · simp [dMeasure, hlat, hc, List.length_drop] <;> omega
        · have hlt : s.cD < s.inQ.length + min (B - s.inQ.length) s.dR :=
            Nat.lt_of_not_le hbr
          have hstep := dStep_shiftCase B (oneShot L) s
            (by rw [hcb, hlat]; simpa using hlt)
          rw [hstep, hfed, hcb]
          have hM := hms.2 hlt
          constructor
          · refine Or.inr ⟨by simp, input.length, le_refl _,
              by simp, ?_, ?_, ?_, ?_, ?_, ?_⟩
            · simp [hfed, List.length_drop, hpendL, List.length_append] <;> omega
            · simp
            · simp [hlat, hdRL] <;> omega
            · intro h
              simp at h
            · intro _
              rfl
            · simp only [masterEq, hlat, Nat.add_zero]
              rw [hfa]
              simpa using hM
          · simp [dMeasure, hlat, hc, List.length_drop] <;> omega

theorem dInv_final (L : Nat) (input : List Int) (s : DState)
    (hinv : dInv L input s) (h1 : s.inQ = []) (h2 : s.dR = 0) :
    s.out = input := by
  rcases hinv with ⟨hc0, hs⟩ | ⟨hc, k, hk, hq, hpendL, hcD, hdR, hphase, houtcd, hmaster⟩
  · subst hs
    have : input = [] := h1
    simp [initD, this]
  · have hkl : input.length ≤ k := by
      have := List.drop_eq_nil_iff_le.mp (hq ▸ h1)
      exact this
    have htk : input.take k = input := List.take_of_length_le hkl
    rw [masterEq, fedAllOf, h2, htk, Nat.sub_zero] at hmaster
    by_cases hout : s.out = []
    · have hlen := congrArg List.length hmaster
      simp [hout, hpendL] at hlen
      have hi0 : input.length = 0 := by omega
      have : input = [] := List.length_eq_zero.mp hi0
      simp [hout, this]
    · have hcd0 : s.cD = 0 := houtcd hout
      rw [hcd0, Nat.sub_zero, List.append_assoc] at hmaster
      have hmm : input ++ List.replicate L (0 : Int) = s.out ++ s.pend :=
        List.append_cancel_left hmaster
      have hlen := congrArg List.length hmm
      simp [hpendL] at hlen
      have hto : s.out = (s.out ++ s.pend).take s.out.length :=
        (List.take_left s.out s.pend).symm
      rw [hto, ← hmm, ← hlen]
      exact List.take_left input _

theorem dRun_sound (B L : Nat) (input : List Int) (hB : 1 ≤ B) :
    ∀ f s, dInv L input s → dMeasure L s ≤ f →
      ∃ s2, dRun B (oneShot L) f s = some s2 ∧ s2.out = input := by
  intro f
  induction f with
  | zero =>
    intro s hinv hm
    by_cases hd : s.inQ = [] ∧ s.dR = 0
    · exact ⟨s, by simp [dRun, hd],
        dInv_final L input s hinv hd.1 hd.2⟩
    · exfalso
      have h1 : 1 ≤ s.inQ.length ∨ 1 ≤ s.dR := by
        by_cases hq : s.inQ = []
        · refine Or.inr ?_
          have : s.dR ≠ 0 := fun h => hd ⟨hq, h⟩
          omega
        · refine Or.inl ?_
          cases hx : s.inQ with
          | nil => exact absurd hx hq
          | cons a l => simp [hx]
      unfold dMeasure at hm
      split at hm <;> omega
  | succ f ih =>
    intro s hinv hm
    by_cases hd : s.inQ = [] ∧ s.dR = 0
    · exact ⟨s, by simp [dRun, hd],
        dInv_final L input s hinv hd.1 hd.2⟩
    · obtain ⟨hinv2, hlt⟩ := dInv_preserved B L input hB s hinv hd
      obtain ⟨s2, hrun, hout⟩ := ih (dStep B (oneShot L) s) hinv2 (by omega)
      refine ⟨s2, ?_, hout⟩
      rw [dRun, if_neg hd]
      exact hrun

/-- C2, amended: for a processor-type effect of fixed latency `L` that
reports `L` on the first `GetLatency()` call and `0` thereafter (the
draining protocol the engine's `delayRemaining` bookkeeping expects) and
internally delays its output by exactly `L` samples, the block loop
terminates over any input (within `inputLen + L + 1` iterations) and the
committed output equals the input sample for sample — no net shift — for
every `L` in `{0, 1, blockSize - 1, blockSize, 3 * blockSize + 1}`. -/
theorem c2_latency_alignment (B L : Nat) (input : List Int) (hB : 1 ≤ B)
    (hL : L = 0 ∨ L = 1 ∨ L = B - 1 ∨ L = B ∨ L = 3 * B + 1) :
    ∃ s2, dRun B (oneShot L) (input.length + L + 1) (initD L input)
        = some s2 ∧ s2.out = input := by
  apply dRun_sound B L input hB
  · exact Or.inl ⟨rfl, rfl⟩
  · simp [dMeasure, initD] <;> omega

theorem c2_latency_alignment_witness :
    ∃ s2, dRun 2 (oneShot 1)
        (([5, 7] : List Int).length + 1 + 1) (initD 1 [5, 7])
        = some s2 ∧ s2.out = [5, 7] :=
  c2_latency_alignment 2 1 [5, 7] (by decide) (Or.inr (Or.inl rfl))

theorem listReplace_mem {l : List MTrack} {t c y : MTrack}
    (h : y ∈ listReplace l t c) : y ∈ l ∨ y = c := by
  induction l with
  | nil => simp [listReplace] at h
  | cons x rest ih =>
    by_cases hx : x = t
    · simp only [listReplace, if_pos hx, List.mem_cons] at h
      rcases h with h | h
      · exact Or.inr h
      · exact Or.inl (List.mem_cons_of_mem _ h)
    · simp only [listReplace, if_neg hx, List.mem_cons] at h
      rcases h with h | h
      · exact Or.inl (by simp [h])
      · rcases ih h with h2 | h2
        · exact Or.inl (List.mem_cons_of_mem _ h2)
        · exact Or.inr h2

theorem listReplace_nodup {l : List MTrack} {t c : MTrack}
    (hnd : l.Nodup) (hc : c ∉ l) : (listReplace l t c).Nodup := by
  induction l with
  | nil => simp [listReplace]
  | cons x rest ih =>
    rcases List.nodup_cons.mp hnd with ⟨hx, hrest⟩
    have hc' : c ∉ rest := fun h => hc (List.mem_cons_of_mem _ h)
    by_cases hxt : x = t
    · simp only [listReplace, if_pos hxt]
      exact List.nodup_cons.mpr ⟨hc', hrest⟩
    · simp only [listReplace, if_neg hxt]
      refine List.nodup_cons.mpr ⟨?_, ih hrest hc'⟩
      intro hmem
      rcases listReplace_mem hmem with h | h
      · exact hx h
      · exact hc (by simp [← h])

theorem filterMap_listReplace (f g : MTrack → Option MTrack) (t c : MTrack) :
    ∀ (l : List MTrack), l.Nodup →
      f c = some c → g t = some c →
      (∀ x ∈ l, x ≠ t → f x = g x) →
      (listReplace l t c).filterMap f = l.filterMap g := by
  intro l
  induction l with
  | nil =>
    intro _ _ _ _
    simp [listReplace]
  | cons x rest ih =>
    intro hnd hfc hgt hag
    rcases List.nodup_cons.mp hnd with ⟨hx, hrest⟩
    by_cases hxt : x = t
    · subst hxt
      have hrw : listReplace (x :: rest) x c = c :: rest := by
        simp [listReplace]
      rw [hrw, List.filterMap_cons_some hfc, List.filterMap_cons_some hgt]
      congr 1
      exact List.filterMap_congr (fun y hy =>
        hag y (List.mem_cons_of_mem _ hy) (fun h => hx (h ▸ hy)))
    · have hfg : f x = g x := hag x (List.mem_cons_self _ _) hxt
      simp only [listReplace, if_neg hxt, List.filterMap_cons, hfg]
      rw [ih hrest hfc hgt
        (fun y hy hyt => hag y (List.mem_cons_of_mem _ hy) hyt)]

theorem find?_entry_snd_ne {maps : List (Option MTrack × MTrack)}
    {t : MTrack} {p : Option MTrack × MTrack}
    (h : maps.find? (fun q => q.1 = some t) = some p)
    (c : MTrack) (hc : c ∉ maps.map Prod.snd) : p.2 ≠ c := by
  intro he
  exact hc (he ▸ List.mem_map_of_mem Prod.snd (List.mem_of_find?_eq_some h))

theorem specFun_outs_cons (maps : List (Option MTrack × MTrack))
    (outs : List MTrack) (c : MTrack) (hc : c ∉ maps.map Prod.snd)
    (t : MTrack) :
    specFun maps (c :: outs) t = specFun maps outs t := by
  unfold specFun
  cases hf : maps.find? (fun p => p.1 = some t) with
  | none => rfl
  | some p =>
    have hne : p.2 ≠ c := find?_entry_snd_ne hf c hc
    simp [List.contains_cons, hne]

theorem specNews_outs_cons (maps : List (Option MTrack × MTrack))
    (outs : List MTrack) (c : MTrack) (hc : c ∉ maps.map Prod.snd) :
    specNews maps (c :: outs) = specNews maps outs := by
  unfold specNews
  apply List.filterMap_congr
  intro p hp
  have hne : p.2 ≠ c := fun he =>
    hc (he ▸ List.mem_map_of_mem Prod.snd hp)
  simp [List.contains_cons, hne]

theorem commitLoop_outsNil : ∀ (maps : List (Option MTrack × MTrack))
    (tracks : List MTrack), tracks.Nodup →
    commitLoop tracks maps []
      = tracks.filterMap (fun t =>
          match maps.find? (fun p => p.1 = some t) with
          | some _ => none
          | none => some t) := by
  intro maps
  induction maps with
  | nil =>
    intro tracks _
    simp [commitLoop, List.find?]
  | cons p maps ih =>
    intro tracks htr
    obtain ⟨orig, c⟩ := p
    cases orig with
    | none =>
      have hstep : commitLoop tracks ((none, c) :: maps) []
          = commitLoop tracks maps [] := by
        simp [commitLoop]
      rw [hstep, ih tracks htr]
      apply List.filterMap_congr
      intro t _
      simp [List.find?]
    | some t0 =>
      have hstep : commitLoop tracks ((some t0, c) :: maps) []
          = commitLoop (tracks.erase t0) maps [] := by
        simp [commitLoop]
      rw [hstep, ih (tracks.erase t0) (htr.erase t0),
        List.Nodup.erase_eq_filter htr, List.filterMap_filter]
      apply List.filterMap_congr
      intro t _
      by_cases ht : t = t0
      · subst ht
        simp [List.find?]
      · have hbne : (t != t0) = true := by
          simp [ht]
        have hdec : decide (t0 = t) = false :=
          decide_eq_false (fun h => ht h.symm)
        simp [List.find?, hbne, hdec]

theorem specFun_none_head (c : MTrack) (maps : List (Option MTrack × MTrack))
    (outs : List MTrack) (t : MTrack) :
    specFun ((none, c) :: maps) outs t = specFun maps outs t := by
  unfold specFun
  simp [List.find?]

theorem specFun_some_head_ne (t0 c : MTrack)
    (maps : List (Option MTrack × MTrack)) (outs : List MTrack)
    (t : MTrack) (h : t ≠ t0) :
    specFun ((some t0, c) :: maps) outs t = specFun maps outs t := by
  unfold specFun
  have hdec : decide (t0 = t) = false := decide_eq_false (fun he => h he.symm)
  simp [List.find?, hdec]

theorem specFun_some_head_eq (t0 c : MTrack)
    (maps : List (Option MTrack × MTrack)) (outs : List MTrack) :
    specFun ((some t0, c) :: maps) outs t0
      = if outs.contains c then some c else none := by
  unfold specFun
  simp [List.find?]

theorem specFun_find_none (maps : List (Option MTrack × MTrack))
    (outs : List MTrack) (c : MTrack) (hno : ∀ p ∈ maps, p.1 ≠ some c) :
    specFun maps outs c = some c := by
  unfold specFun
  rw [List.find?_eq_none.mpr (fun p hp => by simpa using hno p hp)]

theorem specFun_nil (maps : List (Option MTrack × MTrack)) (t : MTrack) :
    specFun maps [] t
      = match maps.find? (fun p => p.1 = some t) with
        | some _ => none
        | none => some t := by
  unfold specFun
  cases hf : maps.find? (fun p => p.1 = some t) <;> simp [hf]

theorem specNews_nil (maps : List (Option MTrack × MTrack)) :
    specNews maps [] = [] := by
  unfold specNews
  simp

theorem specNews_some_head (t0 c : MTrack)
    (maps : List (Option MTrack × MTrack)) (outs : List MTrack) :
    specNews ((some t0, c) :: maps) outs = specNews maps outs := by
  unfold specNews
  rw [List.filterMap_cons_none (by simp)]

theorem specNews_none_head_mem (c : MTrack)
    (maps : List (Option MTrack × MTrack)) (outs : List MTrack)
    (h : outs.contains c = true) :
    specNews ((none, c) :: maps) outs = c :: specNews maps outs := by
  unfold specNews
  have hmem : c ∈ outs := List.mem_of_elem_eq_true h
  have hhead : (fun (p : Option MTrack × MTrack) =>
      if p.1 = none ∧ outs.contains p.2 then some p.2 else none)
      ((none : Option MTrack), c) = some c := by
    simp [hmem]
  exact List.filterMap_cons_some hhead

theorem specNews_none_head_notmem (c : MTrack)
    (maps : List (Option MTrack × MTrack)) (outs : List MTrack)
    (h : outs.contains c = false) :
    specNews ((none, c) :: maps) outs = specNews maps outs := by
  unfold specNews
  have hcm : c ∉ outs := by simpa using h
  have hhead : (fun (p : Option MTrack × MTrack) =>
      if p.1 = none ∧ outs.contains p.2 then some p.2 else none)
      ((none : Option MTrack), c) = none := by
    simp [hcm]
  exact List.filterMap_cons_none hhead

theorem commitLoop_eq_spec : ∀ (maps : List (Option MTrack × MTrack))
    (tracks outs : List MTrack), CommitHyps tracks maps outs →
    commitLoop tracks maps outs = commitSpec tracks maps outs := by
  intro maps
  induction maps with
  | nil =>
    intro tracks outs hyp
    obtain ⟨htr, _, _, _, _, hsub⟩ := hyp
    have houts : outs = [] := List.sublist_nil.mp (by simpa using hsub)
    subst houts
    simp only [commitSpec, specNews_nil, List.append_nil]
    rw [commitLoop_outsNil [] tracks htr]
    exact List.filterMap_congr (fun t _ => (specFun_nil [] t).symm)
  | cons hd maps ih =>
    intro tracks outs hyp
    obtain ⟨orig, c⟩ := hd
    obtain ⟨htr, hcop, horig, hfresh, hnotorig, hsub⟩ := hyp
    rw [List.map_cons] at hcop hsub
    obtain ⟨hcnotin, hcop'⟩ := List.nodup_cons.mp hcop
    have hfc : c ∉ tracks := hfresh c (by simp)
    have hfresh' : ∀ x ∈ maps.map Prod.snd, x ∉ tracks :=
      fun x h => hfresh x (by simp [h])
    have hnotorig' : ∀ x ∈ maps.map Prod.snd, some x ∉ maps.map Prod.fst := by
      intro x h hmem
      exact hnotorig x (by simp [h]) (by simp [hmem])
    have hcnoto : ∀ p ∈ maps, p.1 ≠ some c := by
      intro p hp hpe
      refine hnotorig c (by simp) ?_
      rw [List.map_cons]
      exact List.mem_cons_of_mem _ (hpe ▸ List.mem_map_of_mem Prod.fst hp)
    cases outs with
    | nil =>
      rw [commitLoop_outsNil _ tracks htr]
      simp only [commitSpec, specNews_nil, List.append_nil]
      exact List.filterMap_congr (fun t _ => (specFun_nil _ t).symm)
    | cons o outs =>
      by_cases hco : c = o
      · subst hco
        have houts' : outs.Sublist (maps.map Prod.snd) := by
          cases hsub with
          | cons _ h => exact absurd (h.subset (by simp)) hcnotin
          | cons₂ _ h => exact h
        have hcnout : c ∉ outs := fun h => hcnotin (houts'.subset h)
        cases orig with
        | none =>
          have hstep : commitLoop tracks ((none, c) :: maps) (c :: outs)
              = commitLoop (tracks ++ [c]) maps outs := by
            simp [commitLoop]
          have hyp' : CommitHyps (tracks ++ [c]) maps outs := by
            refine ⟨?_, hcop', ?_, ?_, hnotorig', houts'⟩
            · exact List.nodup_append.mpr ⟨htr, List.nodup_singleton c,
                by intro a ha hb; simp at hb; exact hfc (hb ▸ ha)⟩
            · simpa using horig
            · intro x h hmem
              rcases List.mem_append.mp hmem with hm | hm
              · exact hfresh' x h hm
              · simp at hm
                exact hcnotin (hm ▸ h)
          rw [hstep, ih _ _ hyp']
          simp only [commitSpec]
          rw [List.filterMap_append]
          have hone : List.filterMap (specFun maps outs) [c] = [c] := by
            simp [specFun_find_none maps outs c hcnoto]
          rw [hone,
            specNews_none_head_mem c maps (c :: outs) (by simp),
            specNews_outs_cons maps outs c hcnotin,
            List.filterMap_congr (fun t ht =>
              ((specFun_none_head c maps (c :: outs) t).trans
                (specFun_outs_cons maps outs c hcnotin t)).symm)]
          simp
        | some t0 =>
          have hstep : commitLoop tracks ((some t0, c) :: maps) (c :: outs)
              = commitLoop (listReplace tracks t0 c) maps outs := by
            simp [commitLoop]
          have hyp' : CommitHyps (listReplace tracks t0 c) maps outs := by
            refine ⟨listReplace_nodup htr hfc, hcop', ?_, ?_, hnotorig',
              houts'⟩
            · have : (List.filterMap Prod.fst ((some t0, c) :: maps))
                  = t0 :: maps.filterMap Prod.fst := by
                simp
              rw [this] at horig
              exact (List.nodup_cons.mp horig).2
            · intro x h hmem
              rcases listReplace_mem hmem with hm | hm
              · exact hfresh' x h hm
              · exact hcnotin (hm ▸ h)
          rw [hstep, ih _ _ hyp']
          simp only [commitSpec]
          rw [specNews_some_head t0 c maps (c :: outs),
            specNews_outs_cons maps outs c hcnotin]
          congr 1
          refine filterMap_listReplace _ _ t0 c tracks htr
            (specFun_find_none maps outs c hcnoto) ?_ ?_
          · rw [specFun_some_head_eq t0 c maps (c :: outs)]
            simp
          · intro x _ hxt
            rw [specFun_some_head_ne t0 c maps (c :: outs) x hxt,
              specFun_outs_cons maps outs c hcnotin x]
      · have houts' : (o :: outs).Sublist (maps.map Prod.snd) := by
          cases hsub with
          | cons _ h => exact h
          | cons₂ _ h => exact absurd rfl hco
        have hcnout : c ∉ o :: outs := fun h => hcnotin (houts'.subset h)
        have hcontf : (o :: outs).contains c = false := by
          by_cases hcc : (o :: outs).contains c = true
          · exact absurd (List.mem_of_elem_eq_true hcc) hcnout
          · simpa using hcc
        cases orig with
        | some t0 =>
          have hstep : commitLoop tracks ((some t0, c) :: maps) (o :: outs)
              = commitLoop (tracks.erase t0) maps (o :: outs) := by
            simp [commitLoop, hco]
          have hyp' : CommitHyps (tracks.erase t0) maps (o :: outs) := by
            refine ⟨htr.erase t0, hcop', ?_, ?_, hnotorig', houts'⟩
            · have : (List.filterMap Prod.fst ((some t0, c) :: maps))
                  = t0 :: maps.filterMap Prod.fst := by
                simp
              rw [this] at horig
              exact (List.nodup_cons.mp horig).2
            · intro x h hmem
              exact hfresh' x h (List.erase_subset t0 tracks hmem)
          rw [hstep, ih _ _ hyp']
          simp only [commitSpec]
          rw [specNews_some_head t0 c maps (o :: outs)]
          congr 1
          rw [List.Nodup.erase_eq_filter htr, List.filterMap_filter]
          apply List.filterMap_congr
          intro t _
          by_cases hts : t = t0
          · subst hts
            rw [specFun_some_head_eq t c maps (o :: outs)]
            have hnn : ¬(c = o ∨ c ∈ outs) := by simpa using hcnout
            simp [hnn]
          · have hbe : (t != t0) = true := by simp [hts]
            rw [specFun_some_head_ne t0 c maps (o :: outs) t hts]
            simp [hbe]
        | none =>
          have hstep : commitLoop tracks ((none, c) :: maps) (o :: outs)
              = commitLoop tracks maps (o :: outs) := by
            simp [commitLoop, hco]
          have hyp' : CommitHyps tracks maps (o :: outs) := by
            refine ⟨htr, hcop', ?_, hfresh', hnotorig', houts'⟩
            simpa using horig
          rw [hstep, ih _ _ hyp']
          simp only [commitSpec]
          rw [specNews_none_head_notmem c maps (o :: outs) hcontf]
          congr 1

/-- C1: `ReplaceProcessedTracks(false)` discards the whole working list
and resets the maps while leaving the original track list (its order and
every track's content) exactly as it was; `ReplaceProcessedTracks(true)`
commits: each working copy supersedes its original at the same list
position, originals whose copies were removed from the working list are
removed, and working-list entries with no original are appended as new
tracks (the `commitSpec` description). -/
theorem c1_replaceProcessedTracks (tracks : List MTrack)
    (maps : List (Option MTrack × MTrack)) (outs : List MTrack) :
    replaceProcessedTracks false tracks maps outs = (tracks, [], []) ∧
    (CommitHyps tracks maps outs →
      (replaceProcessedTracks true tracks maps outs).1
        = commitSpec tracks maps outs) := by
  constructor
  · simp [replaceProcessedTracks]
  · intro h
    simp only [replaceProcessedTracks, if_pos]
    exact commitLoop_eq_spec maps tracks outs h

theorem c1_replaceProcessedTracks_witness :
    CommitHyps [trackA, trackB, trackC]
      [(some trackA, copyA), (some trackB, copyB), (none, copyD)]
      [copyA, copyD] ∧
    (replaceProcessedTracks true [trackA, trackB, trackC]
        [(some trackA, copyA), (some trackB, copyB), (none, copyD)]
        [copyA, copyD]).1
      = commitSpec [trackA, trackB, trackC]
          [(some trackA, copyA), (some trackB, copyB), (none, copyD)]
          [copyA, copyD] := by
  have hyp : CommitHyps [trackA, trackB, trackC]
      [(some trackA, copyA), (some trackB, copyB), (none, copyD)]
      [copyA, copyD] := by
    refine ⟨by decide, by decide, by decide, by decide, by decide, ?_⟩
    decide
  exact ⟨hyp, (c1_replaceProcessedTracks [trackA, trackB, trackC]
    [(some trackA, copyA), (some trackB, copyB), (none, copyD)]
    [copyA, copyD]).2 hyp⟩

/-- C6, counterexample: an effect whose `InitPass1()` returns false (and
`InitPass2()` returns false, the default) executes `ProcessPass` zero
times, not "exactly once" — the claim's once-case also needs
`InitPass1()` to succeed. -/
theorem c6_counterexample :
    (processPasses false false constTruePP).2.length ≠ 1 ∧
    processPasses false false constTruePP = (true, []) := by
  constructor
  · decide
  · rfl

/-- C6, amended: for an invocation whose `InitPass1()` succeeds,
`ProcessPass` runs exactly once when `InitPass2()` returns false (the
default), with `GetPass()` reporting 1, and exactly twice when pass 1
succeeds and `InitPass2()` returns true, with `GetPass()` reporting 1
then 2. -/
theorem c6_two_pass_gating (ip2 : Bool) (pp : Nat → Bool) :
    (ip2 = false → processPasses true ip2 pp = (pp 1, [1])) ∧
    (pp 1 = true → ip2 = true → processPasses true ip2 pp = (pp 2, [1, 2])) := by
  constructor
  · intro h
    subst h
    simp [processPasses]
  · intro h1 h2
    subst h2
    simp [processPasses, h1]

theorem c6_two_pass_gating_witness :
    processPasses true false constTruePP = (constTruePP 1, [1]) ∧
    processPasses true true constTruePP = (constTruePP 2, [1, 2]) :=
  ⟨(c6_two_pass_gating false constTruePP).1 rfl,
   (c6_two_pass_gating true constTruePP).2 rfl rfl⟩

theorem add_pred_div (a b : Nat) (hb : 1 ≤ b) :
    (a + (b - 1)) / b = ceilDivSpec a b := by
  unfold ceilDivSpec
  by_cases h : b ∣ a
  · obtain ⟨q, hq⟩ := h
    subst hq
    rw [if_pos ⟨q, rfl⟩, Nat.mul_add_div (by omega),
      Nat.div_eq_of_lt (by omega), Nat.add_zero,
      Nat.mul_div_cancel_left q (by omega)]
  · rw [if_neg h]
    have hmod : a % b ≠ 0 := fun hm => h (Nat.dvd_of_mod_eq_zero hm)
    have hlt : a % b < b := Nat.mod_lt a (by omega)
    conv_lhs => rw [← Nat.div_add_mod a b]
    rw [Nat.add_assoc, Nat.mul_add_div (by omega)]
    congr 1
    rw [show a % b + (b - 1) = (a % b - 1) + b from by omega,
      Nat.add_div_right _ (by omega), Nat.div_eq_of_lt (by omega)]

/-- C5: for every channel-group, with `requested = native * 2` and
`effectBlockSize = SetBlockSize(requested) ≥ 1`, the buffer size the
engine computes equals `ceil(requested / effectBlockSize) *
effectBlockSize`, input buffers are sized
`[numAudioIn][bufferSize]` and output buffers
`[numAudioOut][bufferSize + effectBlockSize]`. -/
theorem c5_buffer_sizing (native numIn numOut : Nat) (sbs : Nat → Nat)
    (hbs : 1 ≤ sbs (native * 2)) :
    (groupBufferSetup sbs native).2
        = ceilDivSpec (native * 2) (sbs (native * 2)) * sbs (native * 2) ∧
    (allocBuffers numIn numOut (groupBufferSetup sbs native).2
        (groupBufferSetup sbs native).1).inBuf.length = numIn ∧
    (∀ row ∈ (allocBuffers numIn numOut (groupBufferSetup sbs native).2
        (groupBufferSetup sbs native).1).inBuf,
      row.length = (groupBufferSetup sbs native).2) ∧
    (allocBuffers numIn numOut (groupBufferSetup sbs native).2
        (groupBufferSetup sbs native).1).outBuf.length = numOut ∧
    (∀ row ∈ (allocBuffers numIn numOut (groupBufferSetup sbs native).2
        (groupBufferSetup sbs native).1).outBuf,
      row.length = (groupBufferSetup sbs native).2
        + (groupBufferSetup sbs native).1) := by
  refine ⟨?_, ?_, ?_, ?_, ?_⟩
  · simp only [groupBufferSetup, computeBufferSize]
    rw [add_pred_div (native * 2) (sbs (native * 2)) hbs]
  · simp [allocBuffers]
  · intro row hrow
    simp only [allocBuffers] at hrow
    rw [List.eq_of_mem_replicate hrow]
    simp
  · simp [allocBuffers]
  · intro row hrow
    simp only [allocBuffers] at hrow
    rw [List.eq_of_mem_replicate hrow]
    simp

theorem c5_buffer_sizing_witness :
    1 ≤ 96 ∧
    (groupBufferSetup (fun _ => 96) 100).2 = ceilDivSpec (100 * 2) 96 * 96 :=
  ⟨by decide, (c5_buffer_sizing 100 2 2 (fun _ => 96) (by decide)).1⟩

/-- C10, counterexample: two consecutive groups with identical native
block size (256) but different rates (44100 vs 48000), under the default
`SetBlockSize`, compute the same buffer size, so the second group does
NOT reallocate — the claim that changing the rate between groups
triggers exactly one reallocation fails (the flags are `[true, false]`,
one allocation total, not a second one). -/
theorem c10_counterexample :
    passAllocFlags defaultSetBlockSize [(44100, 256), (48000, 256)]
        = [true, false] ∧
    passAllocFlags defaultSetBlockSize [(44100, 256), (48000, 256)]
        ≠ [true, true] := by
  constructor
  · rfl
  · decide

/-- C10, amended: within one pass the buffer set is reallocated for a
group exactly when its computed buffer size differs from the previous
group's (the first group always allocates, `mBufferSize` starting at 0);
two consecutive groups with equal computed buffer size allocate once,
with the second reusing the buffers, and consecutive groups with
different computed sizes (e.g. a changed requested block size) each
allocate; a rate change alone does not trigger reallocation. -/
theorem c10_realloc_determinism (sbs : Nat → Nat → Nat) :
    (∀ prev g gs, passAllocGo sbs prev (g :: gs)
        = decide (prev ≠ groupBufSize sbs g.1 g.2)
            :: passAllocGo sbs (groupBufSize sbs g.1 g.2) gs) ∧
    (∀ r1 n1 r2 n2, 0 < groupBufSize sbs r1 n1 →
      (groupBufSize sbs r1 n1 = groupBufSize sbs r2 n2 →
        passAllocFlags sbs [(r1, n1), (r2, n2)] = [true, false]) ∧
      (groupBufSize sbs r1 n1 ≠ groupBufSize sbs r2 n2 →
        passAllocFlags sbs [(r1, n1), (r2, n2)] = [true, true])) := by
  constructor
  · intro prev g gs
    rfl
  · intro r1 n1 r2 n2 hpos
    have h1 : (0 : Nat) ≠ groupBufSize sbs r1 n1 := by omega
    constructor
    · intro heq
      simp [passAllocFlags, passAllocGo, h1, heq]
      omega
    · intro hne
      simp [passAllocFlags, passAllocGo, h1, hne]

theorem c10_realloc_determinism_witness :
    0 < groupBufSize defaultSetBlockSize 44100 256 ∧
    passAllocFlags defaultSetBlockSize [(44100, 256), (48000, 256)]
      = [true, false] :=
  ⟨by decide,
   ((c10_realloc_determinism defaultSetBlockSize).2 44100 256 48000 256
     (by decide)).1 (by decide)⟩

/-- C7: an `AudacityException` thrown by `ProcessBlock` propagates out of
the block loop (the run result is `raised`, not a normal return), the
scope-exit cleanup still discards every working copy and the original
track list is untouched before the exception continues; any other
exception is caught and converted into a `false` return for the group
(the run result is `failed`, nothing propagates) and the originals are
likewise untouched. -/
theorem c7_exception_handling (ty : EffectType) (B : Nat) (lat : Nat → Nat)
    (eff : Nat → List Int → BlockOutcome) (s : OState) (f : Nat)
    (tracks : List MTrack) (maps : List (Option MTrack × MTrack))
    (outs : List MTrack) (hnd : ¬ (s.inQ = [] ∧ s.dR = 0)) :
    (eff s.calls (computeBlock B s.inQ s.dR).fed = BlockOutcome.audacityExn →
      oRun ty B lat eff (f + 1) s = RunResult.raised ∧
      doEffectTracks tracks maps outs RunResult.raised = (true, tracks) ∧
      replaceProcessedTracks false tracks maps outs = (tracks, [], [])) ∧
    (eff s.calls (computeBlock B s.inQ s.dR).fed = BlockOutcome.otherExn →
      oRun ty B lat eff (f + 1) s = RunResult.failed ∧
      doEffectTracks tracks maps outs RunResult.failed = (false, tracks) ∧
      replaceProcessedTracks false tracks maps outs = (tracks, [], [])) := by
  constructor
  · intro hexn
    refine ⟨?_, ?_, ?_⟩
    · rw [oRun, if_neg hnd]
      simp [oStep, hexn]
    · simp [doEffectTracks, replaceProcessedTracks]
    · simp [replaceProcessedTracks]
  · intro hexn
    refine ⟨?_, ?_, ?_⟩
    · rw [oRun, if_neg hnd]
      simp [oStep, hexn]
    · simp [doEffectTracks, replaceProcessedTracks]
    · simp [replaceProcessedTracks]

theorem c7_exception_handling_witness :
    ¬ ((⟨[4], 0, 0, 0, []⟩ : OState).inQ = []
        ∧ (⟨[4], 0, 0, 0, []⟩ : OState).dR = 0) ∧
    oRun EffectType.process 2 (fun _ => 0) effAlwaysRaises 3
        ⟨[4], 0, 0, 0, []⟩ = RunResult.raised := by
  refine ⟨by decide, ?_⟩
  exact ((c7_exception_handling EffectType.process 2 (fun _ => 0)
    effAlwaysRaises ⟨[4], 0, 0, 0, []⟩ 2 [] [] [] (by decide)).1 rfl).1

/-- C8: the sample count returned by `ProcessBlock` is bound and then
ignored (`wxASSERT` in debug builds only): two oracles producing the
same output blocks but arbitrary — even wrong — processed counts drive
the loop to identical results, and a normal return always continues the
loop regardless of the claimed count. -/
theorem c8_processed_count_ignored (ty : EffectType) (B : Nat)
    (lat : Nat → Nat) (eff1 eff2 : Nat → List Int → BlockOutcome)
    (hsame : ∀ n blk, outcomeSameBlock (eff1 n blk) (eff2 n blk)) :
    (∀ f s, oRun ty B lat eff1 f s = oRun ty B lat eff2 f s) ∧
    (∀ s blk p,
      eff1 s.calls (computeBlock B s.inQ s.dR).fed = BlockOutcome.ok blk p →
      ∃ s2, oStep ty B lat eff1 s = StepRes.next s2) := by
  constructor
  · intro f
    induction f with
    | zero =>
      intro s
      rfl
    | succ f ih =>
      intro s
      by_cases hd : s.inQ = [] ∧ s.dR = 0
      · rw [oRun, oRun, if_pos hd, if_pos hd]
      · rw [oRun, oRun, if_neg hd, if_neg hd]
        have hs := hsame s.calls (computeBlock B s.inQ s.dR).fed
        cases h1 : eff1 s.calls (computeBlock B s.inQ s.dR).fed with
        | ok b p =>
          cases h2 : eff2 s.calls (computeBlock B s.inQ s.dR).fed with
          | ok b2 p2 =>
            rw [h1, h2] at hs
            have hb : b = b2 := hs
            subst hb
            simp only [oStep, h1, h2]
            exact ih _
          | audacityExn =>
            rw [h1, h2] at hs
            exact absurd hs (by simp [outcomeSameBlock])
          | otherExn =>
            rw [h1, h2] at hs
            exact absurd hs (by simp [outcomeSameBlock])
        | audacityExn =>
          cases h2 : eff2 s.calls (computeBlock B s.inQ s.dR).fed with
          | ok b2 p2 =>
            rw [h1, h2] at hs
            exact absurd hs (by simp [outcomeSameBlock])
          | audacityExn =>
            simp only [oStep, h1, h2]
          | otherExn =>
            rw [h1, h2] at hs
            exact absurd hs (by simp [outcomeSameBlock])
        | otherExn =>
          cases h2 : eff2 s.calls (computeBlock B s.inQ s.dR).fed with
          | ok b2 p2 =>
            rw [h1, h2] at hs
            exact absurd hs (by simp [outcomeSameBlock])
          | audacityExn =>
            rw [h1, h2] at hs
            exact absurd hs (by simp [outcomeSameBlock])
          | otherExn =>
            simp only [oStep, h1, h2]
  · intro s blk p hok
    simp only [oStep, hok]
    exact ⟨_, rfl⟩

theorem c8_processed_count_ignored_witness :
    (∀ n blk, outcomeSameBlock (effIdRightCount n blk)
      (effIdWrongCount n blk)) ∧
    oRun EffectType.process 2 (fun _ => 0) effIdRightCount 3
        ⟨[4, 5], 0, 0, 0, []⟩
      = oRun EffectType.process 2 (fun _ => 0) effIdWrongCount 3
        ⟨[4, 5], 0, 0, 0, []⟩ := by
  have hsame : ∀ n blk, outcomeSameBlock (effIdRightCount n blk)
      (effIdWrongCount n blk) := by
    intro n blk
    simp [effIdRightCount, effIdWrongCount, outcomeSameBlock]
  exact ⟨hsame, (c8_processed_count_ignored EffectType.process 2
    (fun _ => 0) effIdRightCount effIdWrongCount hsame).1 3
    ⟨[4, 5], 0, 0, 0, []⟩⟩

theorem computeBlock_length_eq (B : Nat) (inL inR : List Int) (dR : Nat)
    (h : inL.length = inR.length) :
    (computeBlock B inL dR).cbs = (computeBlock B inR dR).cbs ∧
    (computeBlock B inL dR).inQ2.length
      = (computeBlock B inR dR).inQ2.length := by
  by_cases h0 : inL.length = 0
  · have h0' : inR.length = 0 := by omega
    simp [computeBlock, h0, h0']
  · have h0' : ¬ inR.length = 0 := by omega
    by_cases hf : B ≤ inL.length
    · have hf' : B ≤ inR.length := by omega
      simp [computeBlock, h0, h0', hf, hf', h]
    · have hf' : ¬ B ≤ inR.length := by omega
      simp [computeBlock, h0, h0', hf, hf', h]

/-- C9: a 2-audio-input effect over a selected stereo pair yields one
`ProcessTrack` invocation for the pair (leader plus right channel),
while a 1-audio-input effect over the same pair yields two invocations,
one per channel; and within a stereo invocation every `ProcessBlock`
call passes both channels together with the same block boundary: each
logged call hands the effect a left block and a right block both of
length `curBlockSize`. -/
theorem c9_channel_pairing (B : Nat) (lat : Nat → Nat) (tl tr : STrack)
    (hB : 1 ≤ B) (hsl : tl.selected = true) (hsr : tr.selected = true) :
    (passVisits 2 [(tl, some tr)] = [(tl, some tr)] ∧
     passVisits 1 [(tl, some tr)] = [(tl, none), (tr, none)]) ∧
    (∀ f n inL inR dR, inL.length = inR.length →
      ∀ call ∈ stereoCallLog B lat f n inL inR dR,
        call.lenL = call.cbs ∧ call.lenR = call.cbs) := by
  constructor
  · constructor
    · simp [passVisits, hsl]
    · simp [passVisits, hsl, hsr]
  · intro f
    induction f with
    | zero =>
      intro n inL inR dR h call hc
      simp [stereoCallLog] at hc
    | succ f ih =>
      intro n inL inR dR h call hc
      by_cases hd : inL = [] ∧ dR = 0
      · rw [stereoCallLog, if_pos hd] at hc
        simp at hc
      · rw [stereoCallLog, if_neg hd] at hc
        obtain ⟨hcbs, hlen2⟩ := computeBlock_length_eq B inL inR dR h
        rcases List.mem_cons.mp hc with hc1 | hc1
        · subst hc1
          exact ⟨computeBlock_fed_length B inL dR hB,
            (computeBlock_fed_length B inR dR hB).trans hcbs.symm⟩
        · exact ih (n + 1) (computeBlock B inL dR).inQ2
            (computeBlock B inR dR).inQ2
            ((computeBlock B inL dR).dR2 + lat n) hlen2 call hc1

theorem c9_channel_pairing_witness :
    (1 ≤ 2 ∧ leftTrack.selected = true ∧ rightTrack.selected = true) ∧
    passVisits 2 [(leftTrack, some rightTrack)]
      = [(leftTrack, some rightTrack)] ∧
    passVisits 1 [(leftTrack, some rightTrack)]
      = [(leftTrack, none), (rightTrack, none)] := by
  refine ⟨⟨by decide, rfl, rfl⟩, ?_⟩
  exact (c9_channel_pairing 2 (fun _ => 0) leftTrack rightTrack
    (by decide) rfl rfl).1

end AudacityEffect
